import Mathlib

/-!
Verification development for the prefix-mapping and reconciliation engine of
claude-memory-bridge (src/index.ts).

Paths are modelled as lists of characters (`Path`).  The filesystem is an
association list from a path to its `lstat`-level entry (`FsEntry`): a
directory, a plain file, or a symbolic link holding its raw target string.
`resolve` from node:path is kept abstract as a parameter `res : Path → Path`
(a canonicalisation function); `existsSync`, which follows symbolic links, is
modelled with an explicit fuel bound on the length of link chains (the real
system call fails after a bounded number of hops as well).

Each definition mirrors one function of src/index.ts:
  * `encodePrefix`       — encodePrefix (line 72)
  * `detectRemotePrefix` — detectRemotePrefix (lines 169-193)
  * `discoverMappings`   — discoverMappings (lines 205-253)
  * `doLink`             — doLink (lines 264-293)
  * `doUnlink`           — the unlink loop of cmdUnlink (lines 511-527)
Fallible system calls (`unlinkSync`, `symlinkSync`, `mkdirSync`) are modelled
as `Option`-returning operations; an exception escaping the loop is modelled
by the `fail` outcome, which records the filesystem at the moment the
exception was raised (the code does not catch it, so prior mutations stay).
-/

namespace Bridge

abbrev Path := List Char

/-- An `lstat`-level filesystem entry: a directory, a plain file, or a
symbolic link storing its raw target. -/
inductive FsEntry where
  | dir : FsEntry
  | file : FsEntry
  | symlink (target : Path) : FsEntry
deriving DecidableEq

/-- The filesystem: an association list from a path to its entry. -/
abbrev Fs := List (Path × FsEntry)

/-- `lstat`-style lookup: first binding of the path wins, no link following. -/
def fsLookup : Fs → Path → Option FsEntry
  | [], _ => none
  | (q, e) :: rest, p => if p = q then some e else fsLookup rest p

/-- Remove every binding of a path (models a successful `unlinkSync`). -/
def fsErase : Fs → Path → Fs
  | [], _ => []
  | (q, e) :: rest, p => if q = p then fsErase rest p else (q, e) :: fsErase rest p

/-- Add a binding for a path (models a successful `symlinkSync`/`mkdirSync`). -/
def fsInsert (fs : Fs) (p : Path) (e : FsEntry) : Fs :=
  (p, e) :: fs

/-- `existsSync`: true when the path resolves, following symbolic links, to an
existing directory or file.  `res` models `path.resolve`; the fuel bounds the
number of link hops (the kernel's ELOOP bound). -/
def existsFollow (res : Path → Path) (fs : Fs) : Nat → Path → Bool
  | 0, _ => false
  | fuel + 1, p =>
    match fsLookup fs p with
    | none => false
    | some FsEntry.dir => true
    | some FsEntry.file => true
    | some (FsEntry.symlink t) => existsFollow res fs fuel (res t)

/-- The four values of the `localState` field of a mapping. -/
inductive LocalState where
  | missing : LocalState
  | symlinkCorrect : LocalState
  | symlinkWrong : LocalState
  | directoryExists : LocalState
deriving DecidableEq

/-- The classification step of discoverMappings (src/index.ts lines 234-247):
start from "missing"; when `existsSync(localFullPath)` holds, `lstat` it —
a symbolic link is compared by `resolve(target) === resolve(sourceFullPath)`
("symlink-correct" vs "symlink-wrong"), anything else is "directory-exists";
a failing inspection (the `catch` branch) leaves "missing". -/
def classifyLocal (res : Path → Path) (fuel : Nat) (fs : Fs)
    (localFullPath sourceFullPath : Path) : LocalState :=
  if existsFollow res fs fuel localFullPath then
    match fsLookup fs localFullPath with
    | some (FsEntry.symlink t) =>
      if res t = res sourceFullPath then LocalState.symlinkCorrect
      else LocalState.symlinkWrong
    | some FsEntry.dir => LocalState.directoryExists
    | some FsEntry.file => LocalState.directoryExists
    | none => LocalState.missing
  else LocalState.missing

/-- encodePrefix (src/index.ts line 72): `prefix.replaceAll("/", "-")`. -/
def encodePrefix (p : Path) : Path :=
  p.map (fun c => if c = '/' then '-' else c)

/-- `path.join(a, b)` for an absolute `a` and a plain name `b`. -/
def pjoin (a b : Path) : Path := a ++ '/' :: b

/-- The `Dirent` kind of a source-directory entry, as reported by
`readdirSync(..., { withFileTypes: true })`. -/
inductive DKind where
  | dir : DKind
  | symlink : DKind
  | other : DKind
deriving DecidableEq

/-- One entry of the source directory listing. -/
structure DirEnt where
  name : Path
  kind : DKind
deriving DecidableEq

/-- The ProjectMapping record (src/index.ts lines 197-203). -/
structure Mapping where
  sourceDirName : Path
  sourceFullPath : Path
  localDirName : Path
  localFullPath : Path
  localState : LocalState
deriving DecidableEq

/-- discoverMappings (src/index.ts lines 205-253).  `root` stands for the
local `~/.claude/projects` directory, `listing` for the result of
`readdirSync(sourcePath, { withFileTypes: true })`.  When the source path
does not exist the code prints an error and calls `process.exit(1)`; this is
modelled by `Except.error 1`, the exit code.  The body of the per-entry loop
(lines 222-249) is named `mkMappingOf`: skip entries that are neither
directories nor symbolic links, skip names not starting with the encoded
remote, otherwise rewrite the name and classify the local path. -/
def mkMappingOf (res : Path → Path) (fuel : Nat) (root : Path) (fs : Fs)
    (sourcePath : Path) (rPre lPre : Path) (entry : DirEnt) : Option Mapping :=
  let encodedRemote := encodePrefix rPre
  let encodedLocal := encodePrefix lPre
  if entry.kind = DKind.other then none
  else if encodedRemote.isPrefixOf entry.name then
    let suffix := entry.name.drop encodedRemote.length
    let localDirName := encodedLocal ++ suffix
    let sourceFullPath := pjoin sourcePath entry.name
    let localFullPath := pjoin root localDirName
    some { sourceDirName := entry.name
           sourceFullPath := sourceFullPath
           localDirName := localDirName
           localFullPath := localFullPath
           localState := classifyLocal res fuel fs localFullPath sourceFullPath }
  else none

def discoverMappings (res : Path → Path) (fuel : Nat) (root : Path) (fs : Fs)
    (sourcePath : Path) (listing : List DirEnt)
    (rPre lPre : Path) : Except Nat (List Mapping) :=
  if existsFollow res fs fuel sourcePath then
    Except.ok (listing.filterMap (mkMappingOf res fuel root fs sourcePath rPre lPre))
  else Except.error 1

/-- `unlinkSync`: fails (`none`) when the path is absent or is a directory. -/
def unlinkSyncM (fs : Fs) (p : Path) : Option Fs :=
  match fsLookup fs p with
  | none => none
  | some FsEntry.dir => none
  | some _ => some (fsErase fs p)

/-- `symlinkSync(target, p)`: fails (`none`) when something already lives at
`p` (EEXIST); otherwise records a symbolic link with the raw target. -/
def symlinkSyncM (fs : Fs) (target p : Path) : Option Fs :=
  match fsLookup fs p with
  | some _ => none
  | none => some (fsInsert fs p (FsEntry.symlink target))

/-- The guarded `mkdirSync` at the top of doLink (src/index.ts lines 265-268):
create the projects root only when `existsSync` denies it; `mkdirSync` itself
fails when a non-directory entry already occupies the path. -/
def ensureDir (res : Path → Path) (fuel : Nat) (root : Path) (fs : Fs) :
    Option Fs :=
  if existsFollow res fs fuel root then some fs
  else
    match fsLookup fs root with
    | none => some (fsInsert fs root FsEntry.dir)
    | some _ => none

/-- Outcome of a doLink run: either the final filesystem with the three
counters, or the filesystem at the moment an uncaught exception was raised
together with the path of the mapping that failed. -/
inductive LinkOutcome where
  | ok (fs : Fs) (created updated skipped : Nat) : LinkOutcome
  | fail (fs : Fs) (failed : Path) : LinkOutcome
deriving DecidableEq

/-- The filesystem carried by an outcome. -/
def LinkOutcome.outFs : LinkOutcome → Fs
  | LinkOutcome.ok fs _ _ _ => fs
  | LinkOutcome.fail fs _ => fs

/-- The per-mapping loop of doLink (src/index.ts lines 270-292). -/
def doLinkAux (fs : Fs) : List Mapping → Nat → Nat → Nat → LinkOutcome
  | [], c, u, s => LinkOutcome.ok fs c u s
  | m :: rest, c, u, s =>
    match m.localState with
    | LocalState.symlinkCorrect => doLinkAux fs rest c u (s + 1)
    | LocalState.symlinkWrong =>
      match unlinkSyncM fs m.localFullPath with
      | none => LinkOutcome.fail fs m.localFullPath
      | some fs1 =>
        match symlinkSyncM fs1 m.sourceFullPath m.localFullPath with
        | none => LinkOutcome.fail fs1 m.localFullPath
        | some fs2 => doLinkAux fs2 rest c (u + 1) s
    | LocalState.directoryExists => doLinkAux fs rest c u (s + 1)
    | LocalState.missing =>
      match symlinkSyncM fs m.sourceFullPath m.localFullPath with
      | none => LinkOutcome.fail fs m.localFullPath
      | some fs1 => doLinkAux fs1 rest (c + 1) u s

/-- doLink (src/index.ts lines 264-293): ensure the projects root exists,
then apply the per-state policy to every mapping. -/
def doLink (res : Path → Path) (fuel : Nat) (root : Path) (fs : Fs)
    (ms : List Mapping) : LinkOutcome :=
  match ensureDir res fuel root fs with
  | none => LinkOutcome.fail fs root
  | some fs0 => doLinkAux fs0 ms 0 0 0

/-- Outcome of the unlink loop. -/
inductive UnlinkOutcome where
  | ok (fs : Fs) (removed : Nat) : UnlinkOutcome
  | fail (fs : Fs) (failed : Path) : UnlinkOutcome
deriving DecidableEq

/-- The filesystem carried by an unlink outcome. -/
def UnlinkOutcome.outFs : UnlinkOutcome → Fs
  | UnlinkOutcome.ok fs _ => fs
  | UnlinkOutcome.fail fs _ => fs

/-- The removal loop of cmdUnlink (src/index.ts lines 517-524): remove the
link of every mapping whose state is "symlink-correct" or "symlink-wrong",
counting removals; other states are untouched. -/
def doUnlink (fs : Fs) : List Mapping → Nat → UnlinkOutcome
  | [], r => UnlinkOutcome.ok fs r
  | m :: rest, r =>
    if m.localState = LocalState.symlinkCorrect ∨
        m.localState = LocalState.symlinkWrong then
      match unlinkSyncM fs m.localFullPath with
      | none => UnlinkOutcome.fail fs m.localFullPath
      | some fs1 => doUnlink fs1 rest (r + 1)
    else doUnlink fs rest r

/-- `name.startsWith("-")` on an encoded name. -/
def startsWithDash : Path → Bool
  | '-' :: _ => true
  | _ => false

/-- The inner while loop of detectRemotePrefix (src/index.ts lines 176-180):
the character-wise common prefix of two names. -/
def commonPrefix2 : Path → Path → Path
  | a :: as, b :: bs => if a = b then a :: commonPrefix2 as bs else []
  | _, _ => []

/-- `prefix.lastIndexOf("-")`, as `none` instead of -1. -/
def lastIdxOf : Path → Option Nat
  | [] => none
  | c :: rest =>
    match lastIdxOf rest with
    | some j => some (j + 1)
    | none => if c = '-' then some 0 else none

/-- The trimming step of detectRemotePrefix (src/index.ts lines 183-187):
cut at the last hyphen, but only when that hyphen sits at a positive index
(`if (lastHyphen > 0)`). -/
def trimToHyphen (l : Path) : Path :=
  match lastIdxOf l with
  | some i => if 0 < i then l.take i else l
  | none => l

/-- detectRemotePrefix (src/index.ts lines 169-193): keep the names starting
with "-", fold the character-wise common prefix, trim at the last hyphen
boundary, and refuse results shorter than 3 characters. -/
def detectRemotePrefix (entries : List Path) : Option Path :=
  match entries.filter startsWithDash with
  | [] => none
  | e0 :: rest =>
    let p := rest.foldl commonPrefix2 e0
    let t := trimToHyphen p
    if t.length < 3 then none else some t

/-- Modelled from the spec: the trim rule as the specification words it —
"trim the candidate backward to the last reserved-character boundary strictly
before its end", with no exception for a boundary at index 0.  Kept separate
from `trimToHyphen` (the code's rule) so the two can be compared. -/
def specTrimToBoundary (l : Path) : Path :=
  match lastIdxOf l with
  | some i => l.take i
  | none => l

/-- Number of mappings in a given state. -/
def countState (st : LocalState) (ms : List Mapping) : Nat :=
  List.countP (fun m => decide (m.localState = st)) ms

/-- A concrete filesystem used to analyse repeated link runs: the projects
root "R" and source directory "S" exist, the source holds one project
"-h-a", and the local side already carries a correct bridge for it. -/
def c2fs : Fs :=
  [(("R".data), FsEntry.dir), (("S".data), FsEntry.dir),
   (pjoin ("S".data) ("-h-a".data), FsEntry.dir),
   (pjoin ("R".data) ("-m-a".data),
     FsEntry.symlink (pjoin ("S".data) ("-h-a".data)))]

/-- The source listing matching `c2fs`. -/
def c2listing : List DirEnt := [{ name := ("-h-a".data), kind := DKind.dir }]

/-- The single mapping discovered over `c2fs` with mapping /h=/m. -/
def c2map : Mapping :=
  { sourceDirName := ("-h-a".data)
    sourceFullPath := pjoin ("S".data) ("-h-a".data)
    localDirName :=
      encodePrefix ("/m".data) ++
        ("-h-a".data).drop (encodePrefix ("/h".data)).length
    localFullPath := pjoin ("R".data)
      (encodePrefix ("/m".data) ++
        ("-h-a".data).drop (encodePrefix ("/h".data)).length)
    localState := LocalState.symlinkCorrect }

/-! ### Filesystem lemmas -/

theorem fsLookup_insert (fs : Fs) (p q : Path) (e : FsEntry) :
    fsLookup (fsInsert fs p e) q = if q = p then some e else fsLookup fs q := by
  simp [fsInsert, fsLookup]

theorem fsLookup_erase (fs : Fs) (p q : Path) :
    fsLookup (fsErase fs p) q = if q = p then none else fsLookup fs q := by
  induction fs with
  | nil => simp [fsErase, fsLookup]
  | cons hd tl ih =>
    obtain ⟨a, e⟩ := hd
    by_cases hap : a = p
    · rw [show fsErase ((a, e) :: tl) p = fsErase tl p from by simp [fsErase, hap],
        ih]
      by_cases hq : q = p
      · simp [hq]
      · simp [hq, fsLookup, hap]
    · rw [show fsErase ((a, e) :: tl) p = (a, e) :: fsErase tl p by
        simp [fsErase, hap]]
      simp only [fsLookup]
      by_cases hq : q = a
      · subst hq
        simp [fsLookup, hap]
      · rw [if_neg hq, ih]
        by_cases hqp : q = p
        · simp [hqp]
        · simp [hqp, fsLookup, hq]

theorem fsLookup_mem {fs : Fs} {p : Path} {e : FsEntry}
    (h : fsLookup fs p = some e) : (p, e) ∈ fs := by
  induction fs with
  | nil => simp [fsLookup] at h
  | cons hd tl ih =>
    obtain ⟨a, b⟩ := hd
    simp only [fsLookup] at h
    by_cases hq : p = a
    · rw [if_pos hq] at h
      injection h with h
      subst hq; subst h
      exact List.mem_cons_self _ _
    · rw [if_neg hq] at h
      exact List.mem_cons_of_mem _ (ih h)

/-! ### existsFollow lemmas -/

theorem existsFollow_of_none {res : Path → Path} {fs : Fs} {p : Path}
    (fuel : Nat) (h : fsLookup fs p = none) :
    existsFollow res fs fuel p = false := by
  cases fuel with
  | zero => rfl
  | succ n => simp [existsFollow, h]

theorem existsFollow_of_dir {res : Path → Path} {fs : Fs} {p : Path}
    {fuel : Nat} (hf : 1 ≤ fuel) (h : fsLookup fs p = some FsEntry.dir) :
    existsFollow res fs fuel p = true := by
  cases fuel with
  | zero => omega
  | succ n => simp [existsFollow, h]

theorem existsFollow_of_file {res : Path → Path} {fs : Fs} {p : Path}
    {fuel : Nat} (hf : 1 ≤ fuel) (h : fsLookup fs p = some FsEntry.file) :
    existsFollow res fs fuel p = true := by
  cases fuel with
  | zero => omega
  | succ n => simp [existsFollow, h]

theorem existsFollow_link_dir {res : Path → Path} {fs : Fs} {p t : Path}
    {fuel : Nat} (hf : 2 ≤ fuel)
    (h : fsLookup fs p = some (FsEntry.symlink t))
    (ht : fsLookup fs (res t) = some FsEntry.dir) :
    existsFollow res fs fuel p = true := by
  obtain ⟨n, rfl⟩ : ∃ n, fuel = n + 2 := ⟨fuel - 2, by omega⟩
  simp only [existsFollow, h]
  exact existsFollow_of_dir (Nat.succ_le_succ (Nat.zero_le n)) ht

theorem existsFollow_link_none {res : Path → Path} {fs : Fs} {p t : Path}
    (fuel : Nat) (h : fsLookup fs p = some (FsEntry.symlink t))
    (ht : fsLookup fs (res t) = none) :
    existsFollow res fs fuel p = false := by
  cases fuel with
  | zero => rfl
  | succ n =>
    simp only [existsFollow, h]
    exact existsFollow_of_none n ht

theorem existsFollow_link_file {res : Path → Path} {fs : Fs} {p t : Path}
    {fuel : Nat} (hf : 2 ≤ fuel)
    (h : fsLookup fs p = some (FsEntry.symlink t))
    (ht : fsLookup fs (res t) = some FsEntry.file) :
    existsFollow res fs fuel p = true := by
  obtain ⟨n, rfl⟩ : ∃ n, fuel = n + 2 := ⟨fuel - 2, by omega⟩
  simp only [existsFollow, h]
  exact existsFollow_of_file (Nat.succ_le_succ (Nat.zero_le n)) ht

theorem lookup_isSome_of_existsFollow {res : Path → Path} {fs : Fs} {p : Path}
    {fuel : Nat} (h : existsFollow res fs fuel p = true) :
    ∃ e, fsLookup fs p = some e := by
  cases fuel with
  | zero => simp [existsFollow] at h
  | succ n =>
    simp only [existsFollow] at h
    cases he : fsLookup fs p with
    | none => rw [he] at h; simp at h
    | some e => exact ⟨e, rfl⟩

/-! ### classifyLocal lemmas -/

theorem classifyLocal_of_not_exists {res : Path → Path} {fuel : Nat} {fs : Fs}
    {L S : Path} (h : existsFollow res fs fuel L = false) :
    classifyLocal res fuel fs L S = LocalState.missing := by
  simp [classifyLocal, h]

theorem classifyLocal_correct {res : Path → Path} {fuel : Nat} {fs : Fs}
    {L S t : Path} (hex : existsFollow res fs fuel L = true)
    (hl : fsLookup fs L = some (FsEntry.symlink t)) (ht : res t = res S) :
    classifyLocal res fuel fs L S = LocalState.symlinkCorrect := by
  simp [classifyLocal, hex, hl, ht]

theorem classifyLocal_wrong {res : Path → Path} {fuel : Nat} {fs : Fs}
    {L S t : Path} (hex : existsFollow res fs fuel L = true)
    (hl : fsLookup fs L = some (FsEntry.symlink t)) (ht : res t ≠ res S) :
    classifyLocal res fuel fs L S = LocalState.symlinkWrong := by
  simp [classifyLocal, hex, hl, ht]

theorem classifyLocal_dirExists {res : Path → Path} {fuel : Nat} {fs : Fs}
    {L S : Path} (hex : existsFollow res fs fuel L = true)
    (hl : fsLookup fs L = some FsEntry.dir ∨ fsLookup fs L = some FsEntry.file) :
    classifyLocal res fuel fs L S = LocalState.directoryExists := by
  rcases hl with hl | hl <;> simp [classifyLocal, hex, hl]

theorem classifyLocal_correct_elim {res : Path → Path} {fuel : Nat} {fs : Fs}
    {L S : Path}
    (h : classifyLocal res fuel fs L S = LocalState.symlinkCorrect) :
    ∃ t, fsLookup fs L = some (FsEntry.symlink t) ∧ res t = res S ∧
      existsFollow res fs fuel L = true := by
  by_cases hex : existsFollow res fs fuel L = true
  · simp only [classifyLocal, hex, if_true] at h
    cases hl : fsLookup fs L with
    | none => rw [hl] at h; simp at h
    | some e =>
      cases e with
      | dir => rw [hl] at h; simp at h
      | file => rw [hl] at h; simp at h
      | symlink t =>
        rw [hl] at h
        by_cases ht : res t = res S
        · exact ⟨t, rfl, ht, hex⟩
        · simp [ht] at h
  · rw [classifyLocal_of_not_exists (by simpa using hex)] at h
    simp at h

theorem classifyLocal_wrong_elim {res : Path → Path} {fuel : Nat} {fs : Fs}
    {L S : Path}
    (h : classifyLocal res fuel fs L S = LocalState.symlinkWrong) :
    ∃ t, fsLookup fs L = some (FsEntry.symlink t) ∧ res t ≠ res S := by
  by_cases hex : existsFollow res fs fuel L = true
  · simp only [classifyLocal, hex, if_true] at h
    cases hl : fsLookup fs L with
    | none => rw [hl] at h; simp at h
    | some e =>
      cases e with
      | dir => rw [hl] at h; simp at h
      | file => rw [hl] at h; simp at h
      | symlink t =>
        rw [hl] at h
        by_cases ht : res t = res S
        · simp [ht] at h
        · exact ⟨t, rfl, ht⟩
  · rw [classifyLocal_of_not_exists (by simpa using hex)] at h
    simp at h

theorem classifyLocal_dirExists_elim {res : Path → Path} {fuel : Nat} {fs : Fs}
    {L S : Path}
    (h : classifyLocal res fuel fs L S = LocalState.directoryExists) :
    (fsLookup fs L = some FsEntry.dir ∨ fsLookup fs L = some FsEntry.file) ∧
      existsFollow res fs fuel L = true := by
  by_cases hex : existsFollow res fs fuel L = true
  · simp only [classifyLocal, hex, if_true] at h
    cases hl : fsLookup fs L with
    | none => rw [hl] at h; simp at h
    | some e =>
      cases e with
      | dir => exact ⟨Or.inl rfl, hex⟩
      | file => exact ⟨Or.inr rfl, hex⟩
      | symlink t =>
        rw [hl] at h
        by_cases ht : res t = res S <;> simp [ht] at h
  · rw [classifyLocal_of_not_exists (by simpa using hex)] at h
    simp at h

theorem classifyLocal_missing_elim {res : Path → Path} {fuel : Nat} {fs : Fs}
    {L S : Path}
    (h : classifyLocal res fuel fs L S = LocalState.missing) :
    existsFollow res fs fuel L = false := by
  by_cases hex : existsFollow res fs fuel L = true
  · simp only [classifyLocal, hex, if_true] at h
    cases hl : fsLookup fs L with
    | none =>
      obtain ⟨e, he⟩ := lookup_isSome_of_existsFollow hex
      rw [he] at hl; exact absurd hl (by simp)
    | some e =>
      cases e with
      | dir => rw [hl] at h; simp at h
      | file => rw [hl] at h; simp at h
      | symlink t =>
        rw [hl] at h
        by_cases ht : res t = res S <;> simp [ht] at h
  · simpa using hex

/-! ### doLink lemmas -/

theorem fsLookup_insert_erase (fs : Fs) (p q : Path) (e : FsEntry) :
    fsLookup (fsInsert (fsErase fs p) p e) q =
      if q = p then some e else fsLookup fs q := by
  rw [fsLookup_insert]
  by_cases hq : q = p
  · simp [hq]
  · rw [if_neg hq, if_neg hq, fsLookup_erase, if_neg hq]

theorem countState_cons (st : LocalState) (m : Mapping) (ms : List Mapping) :
    countState st (m :: ms) =
      countState st ms + (if m.localState = st then 1 else 0) := by
  simp [countState, List.countP_cons]

theorem countState_nil (st : LocalState) : countState st [] = 0 := rfl

/-- Behaviour of the doLink loop on a list of mappings whose recorded states
are consistent with the filesystem and whose local paths do not collide:
it succeeds, each counter counts the corresponding states, every
missing/wrong mapping ends as a symbolic link to its source, and every other
path is untouched. -/
theorem doLinkAux_spec :
    ∀ (ms : List Mapping) (fs : Fs) (c u s : Nat),
    (ms.map Mapping.localFullPath).Nodup →
    (∀ m ∈ ms, m.localState = LocalState.missing →
      fsLookup fs m.localFullPath = none) →
    (∀ m ∈ ms, m.localState = LocalState.symlinkWrong →
      ∃ t, fsLookup fs m.localFullPath = some (FsEntry.symlink t)) →
    ∃ fs',
      doLinkAux fs ms c u s =
        LinkOutcome.ok fs' (c + countState LocalState.missing ms)
          (u + countState LocalState.symlinkWrong ms)
          (s + (countState LocalState.symlinkCorrect ms +
                countState LocalState.directoryExists ms)) ∧
      (∀ m ∈ ms,
        (m.localState = LocalState.missing ∨
         m.localState = LocalState.symlinkWrong) →
        fsLookup fs' m.localFullPath =
          some (FsEntry.symlink m.sourceFullPath)) ∧
      (∀ p : Path,
        (∀ m ∈ ms,
          (m.localState = LocalState.missing ∨
           m.localState = LocalState.symlinkWrong) → p ≠ m.localFullPath) →
        fsLookup fs' p = fsLookup fs p) := by
  intro ms
  induction ms with
  | nil =>
    intro fs c u s _ _ _
    exact ⟨fs, by simp [doLinkAux, countState_nil], by simp, fun p _ => rfl⟩
  | cons m rest ih =>
    intro fs c u s hnd hmiss hwrong
    have hndP : m.localFullPath ∉ rest.map Mapping.localFullPath := by
      simpa using hnd.not_mem
    have hndR : (rest.map Mapping.localFullPath).Nodup := hnd.of_cons
    have hne : ∀ m' ∈ rest, m'.localFullPath ≠ m.localFullPath := by
      intro m' hm' h
      exact hndP (h ▸ List.mem_map_of_mem Mapping.localFullPath hm')
    cases hst : m.localState with
    | symlinkCorrect =>
      obtain ⟨fs', heq, hmut, hframe⟩ :=
        ih fs c u (s + 1) hndR
          (fun m' hm' h => hmiss m' (List.mem_cons_of_mem _ hm') h)
          (fun m' hm' h => hwrong m' (List.mem_cons_of_mem _ hm') h)
      refine ⟨fs', ?_, ?_, ?_⟩
      · simp only [doLinkAux, hst, heq, countState_cons, hst]
        simp only [LinkOutcome.ok.injEq]
        refine ⟨trivial, ?_, ?_, ?_⟩ <;> simp <;> try omega
      · intro m' hm' hor
        rcases List.mem_cons.mp hm' with h | h
        · subst h
          rw [hst] at hor
          rcases hor with h | h <;> exact absurd h (by simp)
        · exact hmut m' h hor
      · intro p hp
        exact hframe p (fun m' hm' hor =>
          hp m' (List.mem_cons_of_mem _ hm') hor)
    | directoryExists =>
      obtain ⟨fs', heq, hmut, hframe⟩ :=
        ih fs c u (s + 1) hndR
          (fun m' hm' h => hmiss m' (List.mem_cons_of_mem _ hm') h)
          (fun m' hm' h => hwrong m' (List.mem_cons_of_mem _ hm') h)
      refine ⟨fs', ?_, ?_, ?_⟩
      · simp only [doLinkAux, hst, heq, countState_cons, hst]
        simp only [LinkOutcome.ok.injEq]
        refine ⟨trivial, ?_, ?_, ?_⟩ <;> simp <;> try omega
      · intro m' hm' hor
        rcases List.mem_cons.mp hm' with h | h
        · subst h
          rw [hst] at hor
          rcases hor with h | h <;> exact absurd h (by simp)
        · exact hmut m' h hor
      · intro p hp
        exact hframe p (fun m' hm' hor =>
          hp m' (List.mem_cons_of_mem _ hm') hor)
    | missing =>
      have hnone : fsLookup fs m.localFullPath = none :=
        hmiss m (List.mem_cons_self _ _) hst
      have hsym : symlinkSyncM fs m.sourceFullPath m.localFullPath =
          some (fsInsert fs m.localFullPath
            (FsEntry.symlink m.sourceFullPath)) := by
        simp [symlinkSyncM, hnone]
      set fs1 := fsInsert fs m.localFullPath
        (FsEntry.symlink m.sourceFullPath) with hfs1
      have hlook1 : ∀ q, fsLookup fs1 q =
          if q = m.localFullPath then some (FsEntry.symlink m.sourceFullPath)
          else fsLookup fs q := fun q => fsLookup_insert fs _ q _
      obtain ⟨fs', heq, hmut, hframe⟩ :=
        ih fs1 (c + 1) u s hndR
          (fun m' hm' h => by
            rw [hlook1, if_neg (hne m' hm')]
            exact hmiss m' (List.mem_cons_of_mem _ hm') h)
          (fun m' hm' h => by
            obtain ⟨t, ht⟩ := hwrong m' (List.mem_cons_of_mem _ hm') h
            exact ⟨t, by rw [hlook1, if_neg (hne m' hm')]; exact ht⟩)
      refine ⟨fs', ?_, ?_, ?_⟩
      · simp only [doLinkAux, hst, hsym, heq, countState_cons, hst]
        simp only [LinkOutcome.ok.injEq]
        refine ⟨trivial, ?_, ?_, ?_⟩ <;> simp <;> try omega
      · intro m' hm' hor
        rcases List.mem_cons.mp hm' with h | h
        · subst h
          rw [hframe m'.localFullPath (fun m'' hm'' _ =>
            fun hc => (hne m'' hm'') hc.symm), hlook1, if_pos rfl]
        · exact hmut m' h hor
      · intro p hp
        have hpm : p ≠ m.localFullPath :=
          hp m (List.mem_cons_self _ _) (Or.inl hst)
        rw [hframe p (fun m' hm' hor => hp m' (List.mem_cons_of_mem _ hm') hor),
          hlook1, if_neg hpm]
    | symlinkWrong =>
      obtain ⟨t, ht⟩ := hwrong m (List.mem_cons_self _ _) hst
      have hunl : unlinkSyncM fs m.localFullPath =
          some (fsErase fs m.localFullPath) := by
        simp [unlinkSyncM, ht]
      have hsym : symlinkSyncM (fsErase fs m.localFullPath)
          m.sourceFullPath m.localFullPath =
          some (fsInsert (fsErase fs m.localFullPath) m.localFullPath
            (FsEntry.symlink m.sourceFullPath)) := by
        simp [symlinkSyncM, fsLookup_erase]
      set fs1 := fsInsert (fsErase fs m.localFullPath) m.localFullPath
        (FsEntry.symlink m.sourceFullPath) with hfs1
      have hlook1 : ∀ q, fsLookup fs1 q =
          if q = m.localFullPath then some (FsEntry.symlink m.sourceFullPath)
          else fsLookup fs q := fun q => fsLookup_insert_erase fs _ q _
      obtain ⟨fs', heq, hmut, hframe⟩ :=
        ih fs1 c (u + 1) s hndR
          (fun m' hm' h => by
            rw [hlook1, if_neg (hne m' hm')]
            exact hmiss m' (List.mem_cons_of_mem _ hm') h)
          (fun m' hm' h => by
            obtain ⟨t', ht'⟩ := hwrong m' (List.mem_cons_of_mem _ hm') h
            exact ⟨t', by rw [hlook1, if_neg (hne m' hm')]; exact ht'⟩)
      refine ⟨fs', ?_, ?_, ?_⟩
      · simp only [doLinkAux, hst, hunl, hsym, heq, countState_cons, hst]
        simp only [LinkOutcome.ok.injEq]
        refine ⟨trivial, ?_, ?_, ?_⟩ <;> simp <;> try omega
      · intro m' hm' hor
        rcases List.mem_cons.mp hm' with h | h
        · subst h
          rw [hframe m'.localFullPath (fun m'' hm'' _ =>
            fun hc => (hne m'' hm'') hc.symm), hlook1, if_pos rfl]
        · exact hmut m' h hor
      · intro p hp
        have hpm : p ≠ m.localFullPath :=
          hp m (List.mem_cons_self _ _) (Or.inr hst)
        rw [hframe p (fun m' hm' hor => hp m' (List.mem_cons_of_mem _ hm') hor),
          hlook1, if_neg hpm]

/-- Whenever the doLink loop returns counters, they add up to the number of
mappings processed. -/
theorem doLinkAux_counts :
    ∀ (ms : List Mapping) (fs : Fs) (c u s : Nat) (fs' : Fs) (c' u' s' : Nat),
    doLinkAux fs ms c u s = LinkOutcome.ok fs' c' u' s' →
    c' + u' + s' = c + u + s + ms.length := by
  intro ms
  induction ms with
  | nil =>
    intro fs c u s fs' c' u' s' h
    simp only [doLinkAux, LinkOutcome.ok.injEq] at h
    obtain ⟨_, h1, h2, h3⟩ := h
    simp only [List.length_nil]
    omega
  | cons m rest ih =>
    intro fs c u s fs' c' u' s' h
    cases hst : m.localState with
    | symlinkCorrect =>
      simp only [doLinkAux, hst] at h
      have := ih fs c u (s + 1) fs' c' u' s' h
      simp only [List.length_cons]; omega
    | directoryExists =>
      simp only [doLinkAux, hst] at h
      have := ih fs c u (s + 1) fs' c' u' s' h
      simp only [List.length_cons]; omega
    | missing =>
      simp only [doLinkAux, hst] at h
      cases hsy : symlinkSyncM fs m.sourceFullPath m.localFullPath with
      | none => simp only [hsy] at h; exact absurd h (by simp)
      | some fs1 =>
        simp only [hsy] at h
        have := ih fs1 (c + 1) u s fs' c' u' s' h
        simp only [List.length_cons]; omega
    | symlinkWrong =>
      simp only [doLinkAux, hst] at h
      cases hun : unlinkSyncM fs m.localFullPath with
      | none => simp only [hun] at h; exact absurd h (by simp)
      | some fs1 =>
        simp only [hun] at h
        cases hsy : symlinkSyncM fs1 m.sourceFullPath m.localFullPath with
        | none => simp only [hsy] at h; exact absurd h (by simp)
        | some fs2 =>
          simp only [hsy] at h
          have := ih fs2 c (u + 1) s fs' c' u' s' h
          simp only [List.length_cons]; omega

/-- A path holding a real directory survives the doLink loop untouched, on
every control path including failing ones: `unlinkSync` refuses directories
and `symlinkSync` refuses occupied paths. -/
theorem doLinkAux_preserves_dir :
    ∀ (ms : List Mapping) (fs : Fs) (c u s : Nat) (P : Path),
    fsLookup fs P = some FsEntry.dir →
    fsLookup (doLinkAux fs ms c u s).outFs P = some FsEntry.dir := by
  intro ms
  induction ms with
  | nil =>
    intro fs c u s P h
    simpa [doLinkAux, LinkOutcome.outFs] using h
  | cons m rest ih =>
    intro fs c u s P h
    cases hst : m.localState with
    | symlinkCorrect => simp only [doLinkAux, hst]; exact ih fs c u (s + 1) P h
    | directoryExists => simp only [doLinkAux, hst]; exact ih fs c u (s + 1) P h
    | missing =>
      by_cases hP : m.localFullPath = P
      · have : symlinkSyncM fs m.sourceFullPath m.localFullPath = none := by
          rw [hP]; simp [symlinkSyncM, h]
        simp only [doLinkAux, hst, this, LinkOutcome.outFs]
        exact h
      · cases hsy : symlinkSyncM fs m.sourceFullPath m.localFullPath with
        | none => simp only [doLinkAux, hst, hsy, LinkOutcome.outFs]; exact h
        | some fs1 =>
          simp only [doLinkAux, hst, hsy]
          have hfs1 : fs1 = fsInsert fs m.localFullPath
              (FsEntry.symlink m.sourceFullPath) := by
            by_cases hl : fsLookup fs m.localFullPath = none
            · simp [symlinkSyncM, hl] at hsy; exact hsy.symm
            · cases he : fsLookup fs m.localFullPath with
              | none => exact absurd he hl
              | some e => simp [symlinkSyncM, he] at hsy
          refine ih fs1 (c + 1) u s P ?_
          rw [hfs1, fsLookup_insert, if_neg (fun hc => hP hc.symm)]
          exact h
    | symlinkWrong =>
      by_cases hP : m.localFullPath = P
      · have : unlinkSyncM fs m.localFullPath = none := by
          rw [hP]; simp [unlinkSyncM, h]
        simp only [doLinkAux, hst, this, LinkOutcome.outFs]
        exact h
      · cases hun : unlinkSyncM fs m.localFullPath with
        | none => simp only [doLinkAux, hst, hun, LinkOutcome.outFs]; exact h
        | some fs1 =>
          have hfs1 : fs1 = fsErase fs m.localFullPath := by
            cases he : fsLookup fs m.localFullPath with
            | none => simp [unlinkSyncM, he] at hun
            | some e =>
              cases e with
              | dir => simp [unlinkSyncM, he] at hun
              | file => simp [unlinkSyncM, he] at hun; exact hun.symm
              | symlink t => simp [unlinkSyncM, he] at hun; exact hun.symm
          have h1 : fsLookup fs1 P = some FsEntry.dir := by
            rw [hfs1, fsLookup_erase, if_neg (fun hc => hP hc.symm)]
            exact h
          cases hsy : symlinkSyncM fs1 m.sourceFullPath m.localFullPath with
          | none => simp only [doLinkAux, hst, hun, hsy, LinkOutcome.outFs]; exact h1
          | some fs2 =>
            simp only [doLinkAux, hst, hun, hsy]
            have hfs2 : fs2 = fsInsert fs1 m.localFullPath
                (FsEntry.symlink m.sourceFullPath) := by
              by_cases hl : fsLookup fs1 m.localFullPath = none
              · simp [symlinkSyncM, hl] at hsy; exact hsy.symm
              · cases he : fsLookup fs1 m.localFullPath with
                | none => exact absurd he hl
                | some e => simp [symlinkSyncM, he] at hsy
            refine ih fs2 c (u + 1) s P ?_
            rw [hfs2, fsLookup_insert, if_neg (fun hc => hP hc.symm)]
            exact h1

/-- `ensureDir` never erases a directory entry either. -/
theorem ensureDir_preserves_dir {res : Path → Path} {fuel : Nat} {root : Path}
    {fs fs0 : Fs} {P : Path} (h : ensureDir res fuel root fs = some fs0)
    (hP : fsLookup fs P = some FsEntry.dir) :
    fsLookup fs0 P = some FsEntry.dir := by
  by_cases hex : existsFollow res fs fuel root = true
  · simp only [ensureDir, hex, if_true, Option.some.injEq] at h
    rw [← h]; exact hP
  · simp only [ensureDir, if_neg hex] at h
    cases hr : fsLookup fs root with
    | none =>
      simp only [hr, Option.some.injEq] at h
      rw [← h, fsLookup_insert]
      have : P ≠ root := fun hc => by rw [hc, hr] at hP; exact absurd hP (by simp)
      rw [if_neg this]
      exact hP
    | some e =>
      simp only [hr] at h
      exact absurd h (by simp)

/-- Counter partition for a whole doLink call. -/
theorem doLink_counts (res : Path → Path) (fuel : Nat) (root : Path)
    (fs : Fs) (ms : List Mapping) (fs' : Fs) (c u s : Nat)
    (h : doLink res fuel root fs ms = LinkOutcome.ok fs' c u s) :
    c + u + s = ms.length := by
  unfold doLink at h
  cases he : ensureDir res fuel root fs with
  | none =>
    simp only [he] at h
    exact absurd h (by simp)
  | some fs0 =>
    simp only [he] at h
    have := doLinkAux_counts ms fs0 0 0 0 fs' c u s h
    omega

/-- doLink on a consistent mapping list over a filesystem whose projects root
is already a directory. -/
theorem doLink_spec (res : Path → Path) (fuel : Nat) (root : Path) (fs : Fs)
    (ms : List Mapping) (hfuel : 1 ≤ fuel)
    (hroot : fsLookup fs root = some FsEntry.dir)
    (hnd : (ms.map Mapping.localFullPath).Nodup)
    (hmiss : ∀ m ∈ ms, m.localState = LocalState.missing →
      fsLookup fs m.localFullPath = none)
    (hwrong : ∀ m ∈ ms, m.localState = LocalState.symlinkWrong →
      ∃ t, fsLookup fs m.localFullPath = some (FsEntry.symlink t)) :
    ∃ fs',
      doLink res fuel root fs ms =
        LinkOutcome.ok fs' (countState LocalState.missing ms)
          (countState LocalState.symlinkWrong ms)
          (countState LocalState.symlinkCorrect ms +
           countState LocalState.directoryExists ms) ∧
      (∀ m ∈ ms,
        (m.localState = LocalState.missing ∨
         m.localState = LocalState.symlinkWrong) →
        fsLookup fs' m.localFullPath =
          some (FsEntry.symlink m.sourceFullPath)) ∧
      (∀ p : Path,
        (∀ m ∈ ms,
          (m.localState = LocalState.missing ∨
           m.localState = LocalState.symlinkWrong) → p ≠ m.localFullPath) →
        fsLookup fs' p = fsLookup fs p) := by
  have hens : ensureDir res fuel root fs = some fs := by
    simp [ensureDir, existsFollow_of_dir hfuel hroot]
  obtain ⟨fs', heq, hmut, hframe⟩ := doLinkAux_spec ms fs 0 0 0 hnd hmiss hwrong
  refine ⟨fs', ?_, hmut, hframe⟩
  simp only [doLink, hens, heq, Nat.zero_add]

/-- A run in which every mapping is already correct or conflicting performs
no mutation at all. -/
theorem doLinkAux_all_skip :
    ∀ (ms : List Mapping) (fs : Fs) (c u s : Nat),
    (∀ m ∈ ms, m.localState = LocalState.symlinkCorrect ∨
      m.localState = LocalState.directoryExists) →
    doLinkAux fs ms c u s = LinkOutcome.ok fs c u (s + ms.length) := by
  intro ms
  induction ms with
  | nil => intro fs c u s _; simp [doLinkAux]
  | cons m rest ih =>
    intro fs c u s hall
    rcases hall m (List.mem_cons_self _ _) with hst | hst <;>
    · simp only [doLinkAux, hst]
      rw [ih fs c u (s + 1) (fun m' hm' => hall m' (List.mem_cons_of_mem _ hm')),
        List.length_cons, show s + 1 + rest.length = s + (rest.length + 1) from
          by omega]

/-- filterMap respects pointwise equality on the list. -/
theorem filterMap_congr_mem {α β : Type} (f g : α → Option β) :
    ∀ (l : List α), (∀ a ∈ l, f a = g a) →
      List.filterMap f l = List.filterMap g l := by
  intro l
  induction l with
  | nil => intro _; rfl
  | cons a as ih =>
    intro h
    simp only [List.filterMap_cons]
    rw [h a (List.mem_cons_self _ _),
      ih (fun a' ha' => h a' (List.mem_cons_of_mem _ ha'))]

/-! ### doUnlink lemmas -/

/-- Behaviour of the unlink loop: when every correct/wrong mapping really has
a symbolic link at its local path and the local paths do not collide, the
loop succeeds, removes exactly those links, counts them, and touches nothing
else. -/
theorem doUnlink_spec :
    ∀ (ms : List Mapping) (fs : Fs) (r : Nat),
    (ms.map Mapping.localFullPath).Nodup →
    (∀ m ∈ ms,
      (m.localState = LocalState.symlinkCorrect ∨
       m.localState = LocalState.symlinkWrong) →
      ∃ t, fsLookup fs m.localFullPath = some (FsEntry.symlink t)) →
    ∃ fs',
      doUnlink fs ms r = UnlinkOutcome.ok fs'
        (r + (countState LocalState.symlinkCorrect ms +
              countState LocalState.symlinkWrong ms)) ∧
      (∀ m ∈ ms,
        (m.localState = LocalState.symlinkCorrect ∨
         m.localState = LocalState.symlinkWrong) →
        fsLookup fs' m.localFullPath = none) ∧
      (∀ p : Path,
        (∀ m ∈ ms,
          (m.localState = LocalState.symlinkCorrect ∨
           m.localState = LocalState.symlinkWrong) → p ≠ m.localFullPath) →
        fsLookup fs' p = fsLookup fs p) := by
  intro ms
  induction ms with
  | nil =>
    intro fs r _ _
    exact ⟨fs, by simp [doUnlink, countState_nil], by simp, fun p _ => rfl⟩
  | cons m rest ih =>
    intro fs r hnd hcw
    have hndP : m.localFullPath ∉ rest.map Mapping.localFullPath := by
      simpa using hnd.not_mem
    have hndR : (rest.map Mapping.localFullPath).Nodup := hnd.of_cons
    have hne : ∀ m' ∈ rest, m'.localFullPath ≠ m.localFullPath := by
      intro m' hm' h
      exact hndP (h ▸ List.mem_map_of_mem Mapping.localFullPath hm')
    by_cases hcwm : m.localState = LocalState.symlinkCorrect ∨
        m.localState = LocalState.symlinkWrong
    · obtain ⟨t, ht⟩ := hcw m (List.mem_cons_self _ _) hcwm
      have hunl : unlinkSyncM fs m.localFullPath =
          some (fsErase fs m.localFullPath) := by
        simp [unlinkSyncM, ht]
      obtain ⟨fs', heq, hrem, hframe⟩ :=
        ih (fsErase fs m.localFullPath) (r + 1) hndR
          (fun m' hm' h => by
            obtain ⟨t', ht'⟩ := hcw m' (List.mem_cons_of_mem _ hm') h
            exact ⟨t', by
              rw [fsLookup_erase, if_neg (hne m' hm')]; exact ht'⟩)
      refine ⟨fs', ?_, ?_, ?_⟩
      · simp only [doUnlink, if_pos hcwm, hunl, heq, countState_cons]
        rcases hcwm with h | h <;>
          · rw [h]
            simp only [UnlinkOutcome.ok.injEq]
            refine ⟨trivial, by simp; omega⟩
      · intro m' hm' hor
        rcases List.mem_cons.mp hm' with h | h
        · subst h
          rw [hframe m'.localFullPath (fun m'' hm'' _ =>
            fun hc => (hne m'' hm'') hc.symm), fsLookup_erase, if_pos rfl]
        · exact hrem m' h hor
      · intro p hp
        have hpm : p ≠ m.localFullPath :=
          hp m (List.mem_cons_self _ _) hcwm
        rw [hframe p (fun m' hm' hor => hp m' (List.mem_cons_of_mem _ hm') hor),
          fsLookup_erase, if_neg hpm]
    · obtain ⟨fs', heq, hrem, hframe⟩ :=
        ih fs r hndR
          (fun m' hm' h => hcw m' (List.mem_cons_of_mem _ hm') h)
      refine ⟨fs', ?_, ?_, ?_⟩
      · simp only [doUnlink, if_neg hcwm, heq, countState_cons]
        push_neg at hcwm
        obtain ⟨h1, h2⟩ := hcwm
        simp only [UnlinkOutcome.ok.injEq]
        refine ⟨trivial, by simp [h1, h2]⟩
      · intro m' hm' hor
        rcases List.mem_cons.mp hm' with h | h
        · exact absurd (h ▸ hor) hcwm
        · exact hrem m' h hor
      · intro p hp
        exact hframe p (fun m' hm' hor =>
          hp m' (List.mem_cons_of_mem _ hm') hor)

/-! ### discoverMappings lemmas -/

theorem mkMappingOf_eq_some {res : Path → Path} {fuel : Nat} {root : Path}
    {fs : Fs} {sourcePath rPre lPre : Path} {entry : DirEnt} {m : Mapping}
    (h : mkMappingOf res fuel root fs sourcePath rPre lPre entry = some m) :
    entry.kind ≠ DKind.other ∧
    (encodePrefix rPre).isPrefixOf entry.name = true ∧
    m = { sourceDirName := entry.name
          sourceFullPath := pjoin sourcePath entry.name
          localDirName :=
            encodePrefix lPre ++ entry.name.drop (encodePrefix rPre).length
          localFullPath := pjoin root (encodePrefix lPre ++
            entry.name.drop (encodePrefix rPre).length)
          localState := classifyLocal res fuel fs
            (pjoin root (encodePrefix lPre ++
              entry.name.drop (encodePrefix rPre).length))
            (pjoin sourcePath entry.name) } := by
  by_cases hk : entry.kind = DKind.other
  · simp [mkMappingOf, hk] at h
  · by_cases hp : (encodePrefix rPre).isPrefixOf entry.name = true
    · refine ⟨hk, hp, ?_⟩
      simp only [mkMappingOf, if_neg hk, hp, if_true, Option.some.injEq] at h
      exact h.symm
    · simp [mkMappingOf, hk, hp] at h

theorem mkMappingOf_kept {res : Path → Path} {fuel : Nat} {root : Path}
    {fs : Fs} {sourcePath rPre lPre : Path} {entry : DirEnt}
    (hk : entry.kind ≠ DKind.other)
    (hp : (encodePrefix rPre).isPrefixOf entry.name = true) :
    mkMappingOf res fuel root fs sourcePath rPre lPre entry =
      some { sourceDirName := entry.name
             sourceFullPath := pjoin sourcePath entry.name
             localDirName :=
               encodePrefix lPre ++ entry.name.drop (encodePrefix rPre).length
             localFullPath := pjoin root (encodePrefix lPre ++
               entry.name.drop (encodePrefix rPre).length)
             localState := classifyLocal res fuel fs
               (pjoin root (encodePrefix lPre ++
                 entry.name.drop (encodePrefix rPre).length))
               (pjoin sourcePath entry.name) } := by
  simp [mkMappingOf, hk, hp]

/-- Changing only the filesystem changes only the classified state of each
produced mapping. -/
theorem mkMappingOf_other_fs (res : Path → Path) (fuel : Nat) (root : Path)
    (fs1 fs2 : Fs) (sourcePath rPre lPre : Path) (entry : DirEnt) :
    mkMappingOf res fuel root fs2 sourcePath rPre lPre entry =
      Option.map
        (fun m =>
          { m with
            localState :=
              classifyLocal res fuel fs2 m.localFullPath m.sourceFullPath })
        (mkMappingOf res fuel root fs1 sourcePath rPre lPre entry) := by
  by_cases hk : entry.kind = DKind.other
  · simp [mkMappingOf, hk]
  · by_cases hp : (encodePrefix rPre).isPrefixOf entry.name = true
    · simp [mkMappingOf, hk, hp]
    · simp [mkMappingOf, hk, hp]

theorem discover_ok_elim {res : Path → Path} {fuel : Nat} {root : Path}
    {fs : Fs} {sourcePath : Path} {listing : List DirEnt} {rPre lPre : Path}
    {ms : List Mapping}
    (hms : discoverMappings res fuel root fs sourcePath listing rPre lPre =
      Except.ok ms) :
    existsFollow res fs fuel sourcePath = true ∧
    ms = listing.filterMap (mkMappingOf res fuel root fs sourcePath rPre lPre)
    := by
  by_cases hex : existsFollow res fs fuel sourcePath = true
  · simp only [discoverMappings, hex, if_true, Except.ok.injEq] at hms
    exact ⟨hex, hms.symm⟩
  · simp [discoverMappings, hex] at hms

theorem discover_state_eq {res : Path → Path} {fuel : Nat} {root : Path}
    {fs : Fs} {sourcePath : Path} {listing : List DirEnt} {rPre lPre : Path}
    {ms : List Mapping}
    (hms : discoverMappings res fuel root fs sourcePath listing rPre lPre =
      Except.ok ms) :
    ∀ m ∈ ms, m.localState =
      classifyLocal res fuel fs m.localFullPath m.sourceFullPath := by
  intro m hm
  obtain ⟨_, hmsEq⟩ := discover_ok_elim hms
  subst hmsEq
  obtain ⟨entry, _, hsome⟩ := List.mem_filterMap.mp hm
  obtain ⟨_, _, hm'⟩ := mkMappingOf_eq_some hsome
  subst hm'
  rfl

/-- The source-entry record behind each mapping produced by discovery. -/
theorem discover_fields {res : Path → Path} {fuel : Nat} {root : Path}
    {fs : Fs} {sourcePath : Path} {listing : List DirEnt} {rPre lPre : Path}
    {ms : List Mapping}
    (hms : discoverMappings res fuel root fs sourcePath listing rPre lPre =
      Except.ok ms) :
    ∀ m ∈ ms, ∃ entry ∈ listing,
      m.sourceDirName = entry.name ∧
      m.sourceFullPath = pjoin sourcePath entry.name := by
  intro m hm
  obtain ⟨_, hmsEq⟩ := discover_ok_elim hms
  subst hmsEq
  obtain ⟨entry, hentry, hsome⟩ := List.mem_filterMap.mp hm
  obtain ⟨_, _, hm'⟩ := mkMappingOf_eq_some hsome
  exact ⟨entry, hentry, by rw [hm'], by rw [hm']⟩

/-! ### Longest-common-prefix lemmas -/

theorem commonPrefix2_prefix_left : ∀ a b : Path, commonPrefix2 a b <+: a := by
  intro a
  induction a with
  | nil => intro b; cases b <;> simp [commonPrefix2]
  | cons x as ih =>
    intro b
    cases b with
    | nil => simp [commonPrefix2]
    | cons y bs =>
      by_cases h : x = y
      · subst h
        simpa [commonPrefix2] using ih bs
      · simp [commonPrefix2, h]

theorem commonPrefix2_prefix_right : ∀ a b : Path, commonPrefix2 a b <+: b := by
  intro a
  induction a with
  | nil => intro b; cases b <;> simp [commonPrefix2]
  | cons x as ih =>
    intro b
    cases b with
    | nil => simp [commonPrefix2]
    | cons y bs =>
      by_cases h : x = y
      · subst h
        simpa [commonPrefix2] using ih bs
      · simp [commonPrefix2, h]

theorem prefix_commonPrefix2 : ∀ (q a b : Path),
    q <+: a → q <+: b → q <+: commonPrefix2 a b := by
  intro q
  induction q with
  | nil => intro a b _ _; exact List.nil_prefix
  | cons c q' ih =>
    intro a b ha hb
    obtain ⟨a', rfl⟩ := ha
    obtain ⟨b', hb'⟩ := hb
    cases b with
    | nil => exact absurd hb' (by simp)
    | cons y bs =>
      have hcy : c = y := by
        have := congrArg (fun l => l.head?) hb'
        simpa using this
      have htl : q' ++ b' = bs := by
        have := congrArg List.tail hb'
        simpa using this
      subst hcy
      simp only [commonPrefix2, if_pos rfl]
      exact (List.cons_prefix_cons).mpr ⟨rfl,
        ih (q' ++ a') bs (List.prefix_append q' a') ⟨b', htl⟩⟩

theorem foldl_commonPrefix2_common :
    ∀ (rest : List Path) (e0 e : Path), e ∈ e0 :: rest →
      List.foldl commonPrefix2 e0 rest <+: e := by
  intro rest
  induction rest with
  | nil =>
    intro e0 e he
    rcases List.mem_cons.mp he with h | h
    · subst h; simp
    · simp at h
  | cons b bs ih =>
    intro e0 e he
    rcases List.mem_cons.mp he with h | h
    · subst h
      simp only [List.foldl_cons]
      exact (ih (commonPrefix2 e b) _ (List.mem_cons_self _ _)).trans
        (commonPrefix2_prefix_left e b)
    · rcases List.mem_cons.mp h with h2 | h2
      · subst h2
        simp only [List.foldl_cons]
        exact (ih (commonPrefix2 e0 e) _ (List.mem_cons_self _ _)).trans
          (commonPrefix2_prefix_right e0 e)
      · simp only [List.foldl_cons]
        exact ih (commonPrefix2 e0 b) e (List.mem_cons_of_mem _ h2)

theorem prefix_foldl_commonPrefix2 :
    ∀ (rest : List Path) (e0 q : Path), q <+: e0 → (∀ e ∈ rest, q <+: e) →
      q <+: List.foldl commonPrefix2 e0 rest := by
  intro rest
  induction rest with
  | nil => intro e0 q h _; simpa using h
  | cons b bs ih =>
    intro e0 q h hall
    simp only [List.foldl_cons]
    exact ih (commonPrefix2 e0 b) q
      (prefix_commonPrefix2 q e0 b h (hall b (List.mem_cons_self _ _)))
      (fun e he => hall e (List.mem_cons_of_mem _ he))

/-! ### Claim theorems -/

/-- C10: for every list of mappings, whenever doLink returns counters they
satisfy created + updated + skipped = number of mappings — every mapping is
counted in exactly one of the three counters regardless of its state. -/
theorem doLink_counts_partition (res : Path → Path) (fuel : Nat) (root : Path)
    (fs : Fs) (ms : List Mapping) (fs' : Fs) (c u s : Nat)
    (h : doLink res fuel root fs ms = LinkOutcome.ok fs' c u s) :
    c + u + s = ms.length :=
  doLink_counts res fuel root fs ms fs' c u s h

/-- Witness for C10: a concrete successful run of doLink. -/
theorem doLink_counts_partition_witness :
    0 + 0 + 0 = ([] : List Mapping).length :=
  doLink_counts_partition id 1 ("R".data) [(("R".data), FsEntry.dir)] []
    [(("R".data), FsEntry.dir)] 0 0 0 (by decide)

/-- C9: if the source directory does not exist, discovery fails fatally
before producing any mapping: the result is `Except.error` carrying exit
code 1 (nonzero), never a partial `Except.ok` list. -/
theorem discover_source_missing_fatal (res : Path → Path) (fuel : Nat)
    (root : Path) (fs : Fs) (sourcePath : Path) (listing : List DirEnt)
    ( rPre lPre : Path)
    (h : existsFollow res fs fuel sourcePath = false) :
    discoverMappings res fuel root fs sourcePath listing rPre lPre =
      Except.error 1 ∧ (1 : Nat) ≠ 0 := by
  refine ⟨?_, by decide⟩
  simp [discoverMappings, h]

/-- Witness for C9: a concrete missing source directory. -/
theorem discover_source_missing_fatal_witness :
    discoverMappings id 1 ("R".data) [] ("S".data) [] ("/h".data) ("/m".data) =
      Except.error 1 ∧ (1 : Nat) ≠ 0 :=
  discover_source_missing_fatal id 1 ("R".data) [] ("S".data) [] ("/h".data)
    ("/m".data) (by decide)

/-- C3: a mapping in state directory-exists has its directory left intact by
doLink on every control path, successful or failing — the entry at its local
path is still the same directory afterwards; such a mapping induces no
filesystem mutation at its path. -/
theorem dir_exists_never_modified (res : Path → Path) (fuel : Nat)
    (root : Path) (fs : Fs) (ms : List Mapping) (m : Mapping)
    (hm : m ∈ ms) (hst : m.localState = LocalState.directoryExists)
    (hdir : fsLookup fs m.localFullPath = some FsEntry.dir) :
    fsLookup (doLink res fuel root fs ms).outFs m.localFullPath =
      some FsEntry.dir := by
  unfold doLink
  cases he : ensureDir res fuel root fs with
  | none => simpa [LinkOutcome.outFs] using hdir
  | some fs0 =>
    exact doLinkAux_preserves_dir ms fs0 0 0 0 _
      (ensureDir_preserves_dir he hdir)

/-- Witness for C3: a concrete conflicting local directory. -/
theorem dir_exists_never_modified_witness :
    fsLookup (doLink id 1 ("R".data)
      [(("R".data), FsEntry.dir), (("P".data), FsEntry.dir)]
      [{ sourceDirName := ("n".data), sourceFullPath := ("s".data),
         localDirName := ("d".data), localFullPath := ("P".data),
         localState := LocalState.directoryExists }]).outFs ("P".data) =
      some FsEntry.dir :=
  dir_exists_never_modified id 1 ("R".data)
    [(("R".data), FsEntry.dir), (("P".data), FsEntry.dir)]
    [{ sourceDirName := ("n".data), sourceFullPath := ("s".data),
       localDirName := ("d".data), localFullPath := ("P".data),
       localState := LocalState.directoryExists }]
    { sourceDirName := ("n".data), sourceFullPath := ("s".data),
      localDirName := ("d".data), localFullPath := ("P".data),
      localState := LocalState.directoryExists }
    (by decide) (by decide) (by decide)

/-- C4: the state computed for every kept entry is exactly the classifier's:
missing when the local path does not exist (in the `existsSync` sense,
following links); symlink-correct when it exists as a symbolic link whose
resolved target equals the resolved source path; symlink-wrong when the
resolved targets differ; directory-exists when it exists and is not a
symbolic link; and every mapping produced by discoverMappings carries the
classifier's verdict for its own paths.  The classifier is total — a failed
inspection yields missing rather than raising. -/
theorem classify_state_cases (res : Path → Path) (fuel : Nat) (fs : Fs)
    (root sourcePath : Path) (listing : List DirEnt) ( rPre lPre : Path)
    (L S : Path) :
    (existsFollow res fs fuel L = false →
      classifyLocal res fuel fs L S = LocalState.missing) ∧
    (∀ t, existsFollow res fs fuel L = true →
      fsLookup fs L = some (FsEntry.symlink t) →
      ((res t = res S →
        classifyLocal res fuel fs L S = LocalState.symlinkCorrect) ∧
       (res t ≠ res S →
        classifyLocal res fuel fs L S = LocalState.symlinkWrong))) ∧
    (existsFollow res fs fuel L = true →
      (fsLookup fs L = some FsEntry.dir ∨ fsLookup fs L = some FsEntry.file) →
      classifyLocal res fuel fs L S = LocalState.directoryExists) ∧
    (∀ ms, discoverMappings res fuel root fs sourcePath listing rPre lPre =
        Except.ok ms →
      ∀ m ∈ ms, m.localState =
        classifyLocal res fuel fs m.localFullPath m.sourceFullPath) := by
  refine ⟨classifyLocal_of_not_exists,
    fun t hex hl => ⟨fun ht => classifyLocal_correct hex hl ht,
      fun ht => classifyLocal_wrong hex hl ht⟩,
    fun hex hl => classifyLocal_dirExists hex hl, ?_⟩
  intro ms hms m hm
  by_cases hex : existsFollow res fs fuel sourcePath = true
  · simp only [discoverMappings, hex, if_true, Except.ok.injEq] at hms
    subst hms
    obtain ⟨entry, _, hsome⟩ := List.mem_filterMap.mp hm
    obtain ⟨_, _, hm'⟩ := mkMappingOf_eq_some hsome
    subst hm'
    rfl
  · simp [discoverMappings, hex] at hms

/-- Witness for C4: on the empty filesystem every path classifies missing. -/
theorem classify_state_cases_witness :
    classifyLocal id 1 [] ("L".data) ("S".data) = LocalState.missing :=
  (classify_state_cases id 1 [] ("R".data) ("S".data) [] ("/h".data)
    ("/m".data) ("L".data) ("S".data)).1 (by decide)

/-- C6: prefix inference returns no confident prefix (null) whenever the
trimmed candidate is empty or shorter than 3 characters, and an empty input
set also yields null rather than an error; in particular it returns null on
the two names "-home-a" and "-work-b". -/
theorem detect_min_length_policy :
    (detectRemotePrefix [] = none) ∧
    (∀ (entries : List Path) (e0 : Path) (rest : List Path),
      entries.filter startsWithDash = e0 :: rest →
      (trimToHyphen (List.foldl commonPrefix2 e0 rest)).length < 3 →
      detectRemotePrefix entries = none) ∧
    (detectRemotePrefix ["-home-a".data, "-work-b".data] = none) := by
  refine ⟨rfl, ?_, by decide⟩
  intro entries e0 rest hf hlen
  simp [detectRemotePrefix, hf, hlen]

/-- Witness for C6: a concrete one-name set whose candidate is too short. -/
theorem detect_min_length_policy_witness :
    detectRemotePrefix [("-a".data)] = none :=
  detect_min_length_policy.2.1 [("-a".data)] ("-a".data) [] (by decide)
    (by decide)

/-- C7: every source entry that is a directory or symbolic link and whose
name is the encoded remote prefix followed by a suffix yields a mapping whose
local name is the encoded local prefix followed by the same suffix (encode
replaces path separators with "-"); and every produced mapping originates
from such a kept entry — entries of other kinds or with other names produce
no mapping. -/
theorem discover_rewrite_names (res : Path → Path) (fuel : Nat) (root : Path)
    (fs : Fs) (sourcePath : Path) (listing : List DirEnt) ( rPre lPre : Path)
    (ms : List Mapping)
    (hms : discoverMappings res fuel root fs sourcePath listing rPre lPre =
      Except.ok ms) :
    (∀ entry ∈ listing, ∀ suffix : Path,
      (entry.kind = DKind.dir ∨ entry.kind = DKind.symlink) →
      entry.name = encodePrefix rPre ++ suffix →
      ∃ m ∈ ms, m.sourceDirName = entry.name ∧
        m.localDirName = encodePrefix lPre ++ suffix ∧
        m.sourceFullPath = pjoin sourcePath entry.name ∧
        m.localFullPath = pjoin root (encodePrefix lPre ++ suffix)) ∧
    (∀ m ∈ ms, ∃ entry ∈ listing, entry.kind ≠ DKind.other ∧
      (encodePrefix rPre).isPrefixOf entry.name = true ∧
      m.sourceDirName = entry.name) := by
  by_cases hex : existsFollow res fs fuel sourcePath = true
  · simp only [discoverMappings, hex, if_true, Except.ok.injEq] at hms
    subst hms
    constructor
    · intro entry hentry suffix hkind hname
      have hk : entry.kind ≠ DKind.other := by
        rcases hkind with h | h <;> simp [h]
      have hp : (encodePrefix rPre).isPrefixOf entry.name = true :=
        (List.isPrefixOf_iff_prefix).mpr ⟨suffix, hname.symm⟩
      have hdrop : entry.name.drop (encodePrefix rPre).length = suffix := by
        rw [hname]
        exact List.drop_left _ _
      refine ⟨_, List.mem_filterMap.mpr
        ⟨entry, hentry, mkMappingOf_kept hk hp⟩, rfl, ?_, rfl, ?_⟩
      · simp only [hdrop]
      · simp only [hdrop]
    · intro m hm
      obtain ⟨entry, hentry, hsome⟩ := List.mem_filterMap.mp hm
      obtain ⟨hk, hp, hm'⟩ := mkMappingOf_eq_some hsome
      exact ⟨entry, hentry, hk, hp, by rw [hm']⟩
  · simp [discoverMappings, hex] at hms

/-- Witness for C7: one concrete kept entry and its rewritten mapping. -/
theorem discover_rewrite_names_witness :
    ∃ m ∈ [{ sourceDirName := ("-h-a".data),
             sourceFullPath := pjoin ("S".data) ("-h-a".data),
             localDirName :=
               encodePrefix ("/m".data) ++
                 ("-h-a".data).drop (encodePrefix ("/h".data)).length,
             localFullPath := pjoin ("R".data)
               (encodePrefix ("/m".data) ++
                 ("-h-a".data).drop (encodePrefix ("/h".data)).length),
             localState := LocalState.missing : Mapping }],
      m.sourceDirName = ("-h-a".data) ∧
      m.localDirName = encodePrefix ("/m".data) ++ ("-a".data) ∧
      m.sourceFullPath = pjoin ("S".data) ("-h-a".data) ∧
      m.localFullPath =
        pjoin ("R".data) (encodePrefix ("/m".data) ++ ("-a".data)) :=
  (discover_rewrite_names id 1 ("R".data) [(("S".data), FsEntry.dir)]
    ("S".data) [{ name := ("-h-a".data), kind := DKind.dir }] ("/h".data)
    ("/m".data) _ (by rfl)).1
    { name := ("-h-a".data), kind := DKind.dir } (by decide) ("-a".data)
    (by decide) (by decide)

/-- C1: doLink applies exactly the per-state policy.  On a mapping list whose
states are consistent with the filesystem (nothing at a missing path, a
symbolic link at a wrong path) and whose local paths do not collide, doLink
returns the aggregate where created counts the missing mappings, updated the
symlink-wrong ones and skipped the symlink-correct and directory-exists
ones; each missing/wrong mapping ends with a fresh symbolic link
localPath -> sourcePath (the wrong one's previous link having been removed),
and the paths of skipped mappings — and all other paths — are untouched. -/
theorem doLink_per_state_policy (res : Path → Path) (fuel : Nat) (root : Path)
    (fs : Fs) (ms : List Mapping) (hfuel : 1 ≤ fuel)
    (hroot : fsLookup fs root = some FsEntry.dir)
    (hnd : (ms.map Mapping.localFullPath).Nodup)
    (hmiss : ∀ m ∈ ms, m.localState = LocalState.missing →
      fsLookup fs m.localFullPath = none)
    (hwrong : ∀ m ∈ ms, m.localState = LocalState.symlinkWrong →
      ∃ t, fsLookup fs m.localFullPath = some (FsEntry.symlink t)) :
    ∃ fs',
      doLink res fuel root fs ms =
        LinkOutcome.ok fs' (countState LocalState.missing ms)
          (countState LocalState.symlinkWrong ms)
          (countState LocalState.symlinkCorrect ms +
           countState LocalState.directoryExists ms) ∧
      (∀ m ∈ ms,
        (m.localState = LocalState.missing ∨
         m.localState = LocalState.symlinkWrong) →
        fsLookup fs' m.localFullPath =
          some (FsEntry.symlink m.sourceFullPath)) ∧
      (∀ p : Path,
        (∀ m ∈ ms,
          (m.localState = LocalState.missing ∨
           m.localState = LocalState.symlinkWrong) → p ≠ m.localFullPath) →
        fsLookup fs' p = fsLookup fs p) :=
  doLink_spec res fuel root fs ms hfuel hroot hnd hmiss hwrong

/-- Witness for C1: one concrete missing mapping gets created. -/
theorem doLink_per_state_policy_witness :
    ∃ fs',
      doLink id 1 ("R".data) [(("R".data), FsEntry.dir)]
        [{ sourceDirName := ("n".data), sourceFullPath := ("s".data),
           localDirName := ("d".data), localFullPath := ("P".data),
           localState := LocalState.missing }] =
        LinkOutcome.ok fs'
          (countState LocalState.missing
            [{ sourceDirName := ("n".data), sourceFullPath := ("s".data),
               localDirName := ("d".data), localFullPath := ("P".data),
               localState := LocalState.missing }])
          (countState LocalState.symlinkWrong
            [{ sourceDirName := ("n".data), sourceFullPath := ("s".data),
               localDirName := ("d".data), localFullPath := ("P".data),
               localState := LocalState.missing }])
          (countState LocalState.symlinkCorrect
            [{ sourceDirName := ("n".data), sourceFullPath := ("s".data),
               localDirName := ("d".data), localFullPath := ("P".data),
               localState := LocalState.missing }] +
           countState LocalState.directoryExists
            [{ sourceDirName := ("n".data), sourceFullPath := ("s".data),
               localDirName := ("d".data), localFullPath := ("P".data),
               localState := LocalState.missing }]) ∧
      (∀ m ∈ [{ sourceDirName := ("n".data), sourceFullPath := ("s".data),
                localDirName := ("d".data), localFullPath := ("P".data),
                localState := LocalState.missing : Mapping }],
        (m.localState = LocalState.missing ∨
         m.localState = LocalState.symlinkWrong) →
        fsLookup fs' m.localFullPath =
          some (FsEntry.symlink m.sourceFullPath)) ∧
      (∀ p : Path,
        (∀ m ∈ [{ sourceDirName := ("n".data), sourceFullPath := ("s".data),
                  localDirName := ("d".data), localFullPath := ("P".data),
                  localState := LocalState.missing : Mapping }],
          (m.localState = LocalState.missing ∨
           m.localState = LocalState.symlinkWrong) → p ≠ m.localFullPath) →
        fsLookup fs' p =
          fsLookup [(("R".data), FsEntry.dir)] p) :=
  doLink_per_state_policy id 1 ("R".data) [(("R".data), FsEntry.dir)]
    [{ sourceDirName := ("n".data), sourceFullPath := ("s".data),
       localDirName := ("d".data), localFullPath := ("P".data),
       localState := LocalState.missing }]
    (by decide) (by decide) (by decide) (by decide)
    (by
      intro m hm h
      simp only [List.mem_singleton] at hm
      subst hm
      exact absurd h (by decide))

/-- C5 counterexample: on the two names "-abc" and "-abcd" the character-wise
longest common prefix is "-abc", whose only reserved-character boundary
strictly before its end sits at index 0, so the trim described by the claim
yields the empty candidate — yet detectRemotePrefix answers some "-abc",
an untrimmed result that cuts the segment "abcd" mid-way. -/
theorem detect_trim_cex :
    detectRemotePrefix [("-abc".data), ("-abcd".data)] = some ("-abc".data) ∧
    specTrimToBoundary
      (List.foldl commonPrefix2 ("-abc".data) [("-abcd".data)]) =
      ([] : Path) ∧
    some ("-abc".data) ≠ some ([] : Path) := by
  refine ⟨by decide, by decide, by decide⟩

/-- C5 (amended): for every non-empty set of encoded names beginning with the
reserved character, the candidate folded by detectRemotePrefix is the
character-wise longest common prefix of the names (a common prefix and an
upper bound of all common prefixes; the whole name for a one-element set);
the function then trims the candidate backward to its last
reserved-character boundary only when that boundary sits at a positive
index — a candidate whose only reserved character is its leading one is kept
untrimmed — and returns the result unless it is shorter than 3 characters;
in particular on {"-home-user-proj-a", "-home-user-proj-b",
"-home-user-work"} it returns "-home-user". -/
theorem detect_lcp_trim :
    (∀ (e0 : Path) (rest : List Path) (entries : List Path),
      entries = e0 :: rest →
      (∀ e ∈ entries, startsWithDash e = true) →
      (∀ e ∈ entries, List.foldl commonPrefix2 e0 rest <+: e) ∧
      (∀ q : Path, (∀ e ∈ entries, q <+: e) →
        q <+: List.foldl commonPrefix2 e0 rest) ∧
      detectRemotePrefix entries =
        (if (trimToHyphen (List.foldl commonPrefix2 e0 rest)).length < 3
         then none
         else some (trimToHyphen (List.foldl commonPrefix2 e0 rest)))) ∧
    detectRemotePrefix
      [("-home-user-proj-a".data), ("-home-user-proj-b".data),
       ("-home-user-work".data)] = some ("-home-user".data) := by
  constructor
  · intro e0 rest entries hent hall
    subst hent
    have hfilter : (e0 :: rest).filter startsWithDash = e0 :: rest :=
      List.filter_eq_self.mpr hall
    refine ⟨foldl_commonPrefix2_common rest e0, ?_, ?_⟩
    · intro q hq
      exact prefix_foldl_commonPrefix2 rest e0 q
        (hq e0 (List.mem_cons_self _ _))
        (fun e he => hq e (List.mem_cons_of_mem _ he))
    · simp only [detectRemotePrefix, hfilter]
  · decide

/-- Witness for C5 (amended): a concrete candidate whose trimmed form is too
short, evaluated through the general statement. -/
theorem detect_lcp_trim_witness :
    detectRemotePrefix [("-x-ab".data)] =
      (if (trimToHyphen
            (List.foldl commonPrefix2 ("-x-ab".data) [])).length < 3
       then none
       else some (trimToHyphen (List.foldl commonPrefix2 ("-x-ab".data) [])))
    :=
  (detect_lcp_trim.1 ("-x-ab".data) [] [("-x-ab".data)] rfl (by decide)).2.2

/-- C8: the unlink loop removes the link of every mapping whose state is
symlink-correct or symlink-wrong, leaves mappings in state missing or
directory-exists (and every other path) untouched, and reports a single
removed count equal to the number of links removed; and for a discovered set
of mappings all in symlink-correct state, unlink removes exactly that many
links and a subsequent scan classifies all of them as missing. -/
theorem unlink_removes_links :
    (∀ (fs : Fs) (ms : List Mapping),
      (ms.map Mapping.localFullPath).Nodup →
      (∀ m ∈ ms,
        (m.localState = LocalState.symlinkCorrect ∨
         m.localState = LocalState.symlinkWrong) →
        ∃ t, fsLookup fs m.localFullPath = some (FsEntry.symlink t)) →
      ∃ fs',
        doUnlink fs ms 0 = UnlinkOutcome.ok fs'
          (countState LocalState.symlinkCorrect ms +
           countState LocalState.symlinkWrong ms) ∧
        (∀ m ∈ ms,
          (m.localState = LocalState.symlinkCorrect ∨
           m.localState = LocalState.symlinkWrong) →
          fsLookup fs' m.localFullPath = none) ∧
        (∀ m ∈ ms,
          (m.localState = LocalState.missing ∨
           m.localState = LocalState.directoryExists) →
          fsLookup fs' m.localFullPath = fsLookup fs m.localFullPath) ∧
        (∀ p : Path,
          (∀ m ∈ ms,
            (m.localState = LocalState.symlinkCorrect ∨
             m.localState = LocalState.symlinkWrong) →
            p ≠ m.localFullPath) →
          fsLookup fs' p = fsLookup fs p)) ∧
    (∀ (res : Path → Path) (fuel : Nat) (root : Path) (fs : Fs)
        (sourcePath : Path) (listing : List DirEnt) ( rPre lPre : Path)
        (ms : List Mapping),
      1 ≤ fuel →
      discoverMappings res fuel root fs sourcePath listing rPre lPre =
        Except.ok ms →
      (∀ m ∈ ms, m.localState = LocalState.symlinkCorrect) →
      (ms.map Mapping.localFullPath).Nodup →
      fsLookup fs sourcePath = some FsEntry.dir →
      (∀ m ∈ ms, sourcePath ≠ m.localFullPath) →
      ∃ fs',
        doUnlink fs ms 0 = UnlinkOutcome.ok fs' ms.length ∧
        discoverMappings res fuel root fs' sourcePath listing rPre lPre =
          Except.ok (ms.map (fun m =>
            { m with localState := LocalState.missing }))) := by
  constructor
  · intro fs ms hnd hcw
    obtain ⟨fs', heq, hrem, hframe⟩ := doUnlink_spec ms fs 0 hnd hcw
    refine ⟨fs', by simpa using heq, hrem, ?_, hframe⟩
    intro m hm hstm
    refine hframe m.localFullPath ?_
    intro m' hm' hcwm' hpe
    have hmm : m = m' := List.inj_on_of_nodup_map hnd hm hm' hpe
    rw [← hmm] at hcwm'
    rcases hstm with h | h <;> rcases hcwm' with h' | h' <;>
      · rw [h] at h'
        exact absurd h' (by decide)
  · intro res fuel root fs sourcePath listing rPre lPre ms hfuel hms hall hnd
      hsrc hsrcne
    obtain ⟨hex, hmsEq⟩ := discover_ok_elim hms
    have hstate := discover_state_eq hms
    have hcw : ∀ m ∈ ms,
        (m.localState = LocalState.symlinkCorrect ∨
         m.localState = LocalState.symlinkWrong) →
        ∃ t, fsLookup fs m.localFullPath = some (FsEntry.symlink t) := by
      intro m hm _
      obtain ⟨t, ht, _, _⟩ := classifyLocal_correct_elim
        ((hstate m hm).symm.trans (hall m hm))
      exact ⟨t, ht⟩
    obtain ⟨fs', heq, hrem, hframe⟩ := doUnlink_spec ms fs 0 hnd hcw
    have hcountC : countState LocalState.symlinkCorrect ms = ms.length :=
      List.countP_eq_length.mpr (fun m hm => by simp [hall m hm])
    have hcountW : countState LocalState.symlinkWrong ms = 0 :=
      List.countP_eq_zero.mpr (fun m hm => by simp [hall m hm])
    refine ⟨fs', by rw [heq, hcountC, hcountW]; ring_nf, ?_⟩
    have hsrc' : fsLookup fs' sourcePath = some FsEntry.dir := by
      rw [hframe sourcePath (fun m hm _ => hsrcne m hm)]
      exact hsrc
    have hex' : existsFollow res fs' fuel sourcePath = true :=
      existsFollow_of_dir hfuel hsrc'
    have hnone : ∀ m ∈ ms, fsLookup fs' m.localFullPath = none :=
      fun m hm => hrem m hm (Or.inl (hall m hm))
    simp only [discoverMappings, hex', if_true, Except.ok.injEq]
    rw [filterMap_congr_mem _ _ listing (fun entry _ =>
      mkMappingOf_other_fs res fuel root fs fs' sourcePath rPre lPre entry),
      ← List.map_filterMap, ← hmsEq]
    refine List.map_congr_left ?_
    intro m hm
    have : classifyLocal res fuel fs' m.localFullPath m.sourceFullPath =
        LocalState.missing :=
      classifyLocal_of_not_exists
        (existsFollow_of_none fuel (hnone m hm))
    rw [this]

/-- Witness for C8: one concrete correctly-linked mapping is removed and the
next scan reports it missing. -/
theorem unlink_removes_links_witness :
    ∃ fs',
      doUnlink
        [(("S".data), FsEntry.dir),
         (pjoin ("S".data) ("-h-a".data), FsEntry.dir),
         (pjoin ("R".data) ("-m-a".data),
           FsEntry.symlink (pjoin ("S".data) ("-h-a".data)))]
        [{ sourceDirName := ("-h-a".data),
           sourceFullPath := pjoin ("S".data) ("-h-a".data),
           localDirName :=
             encodePrefix ("/m".data) ++
               ("-h-a".data).drop (encodePrefix ("/h".data)).length,
           localFullPath := pjoin ("R".data)
             (encodePrefix ("/m".data) ++
               ("-h-a".data).drop (encodePrefix ("/h".data)).length),
           localState := LocalState.symlinkCorrect }] 0 =
        UnlinkOutcome.ok fs'
          ([{ sourceDirName := ("-h-a".data),
              sourceFullPath := pjoin ("S".data) ("-h-a".data),
              localDirName :=
                encodePrefix ("/m".data) ++
                  ("-h-a".data).drop (encodePrefix ("/h".data)).length,
              localFullPath := pjoin ("R".data)
                (encodePrefix ("/m".data) ++
                  ("-h-a".data).drop (encodePrefix ("/h".data)).length),
              localState := LocalState.symlinkCorrect : Mapping }]).length ∧
      discoverMappings id 2 ("R".data) fs' ("S".data)
        [{ name := ("-h-a".data), kind := DKind.dir }] ("/h".data)
        ("/m".data) =
        Except.ok
          (([{ sourceDirName := ("-h-a".data),
               sourceFullPath := pjoin ("S".data) ("-h-a".data),
               localDirName :=
                 encodePrefix ("/m".data) ++
                   ("-h-a".data).drop (encodePrefix ("/h".data)).length,
               localFullPath := pjoin ("R".data)
                 (encodePrefix ("/m".data) ++
                   ("-h-a".data).drop (encodePrefix ("/h".data)).length),
               localState := LocalState.symlinkCorrect : Mapping }]).map
            (fun m => { m with localState := LocalState.missing })) :=
  unlink_removes_links.2 id 2 ("R".data)
    [(("S".data), FsEntry.dir),
     (pjoin ("S".data) ("-h-a".data), FsEntry.dir),
     (pjoin ("R".data) ("-m-a".data),
       FsEntry.symlink (pjoin ("S".data) ("-h-a".data)))]
    ("S".data) [{ name := ("-h-a".data), kind := DKind.dir }] ("/h".data)
    ("/m".data)
    [{ sourceDirName := ("-h-a".data),
       sourceFullPath := pjoin ("S".data) ("-h-a".data),
       localDirName :=
         encodePrefix ("/m".data) ++
           ("-h-a".data).drop (encodePrefix ("/h".data)).length,
       localFullPath := pjoin ("R".data)
         (encodePrefix ("/m".data) ++
           ("-h-a".data).drop (encodePrefix ("/h".data)).length),
       localState := LocalState.symlinkCorrect }]
    (by decide) (by rfl) (by decide) (by decide) (by decide) (by decide)

/-- C2 counterexample: over `c2fs` discovery finds one already-correct
mapping; the first link run returns {created 0, updated 0, skipped 1} and
leaves the filesystem unchanged (the result carries `c2fs` itself), so the
second run is the very same call and also returns skipped = 1 — while the
claim predicts skipped = first created + first updated = 0 + 0 on the second
run. -/
theorem link_twice_cex :
    discoverMappings id 2 ("R".data) c2fs ("S".data) c2listing ("/h".data)
      ("/m".data) = Except.ok [c2map] ∧
    doLink id 2 ("R".data) c2fs [c2map] = LinkOutcome.ok c2fs 0 0 1 ∧
    (1 : Nat) ≠ 0 + 0 :=
  ⟨by rfl, by decide, by decide⟩

/-- C2 (amended): running link twice in succession with identical inputs and
no external filesystem change yields {created 0, updated 0, skipped N} on the
second run, where N is the first run's created + updated + skipped, i.e. the
number of discovered mappings; the second run performs no mutation.
Hypotheses: the resolve function and link chains are one-level (every
symbolic link in the filesystem resolves to a directory, a file or nothing),
the projects root and the source directory are directories, every discovered
source entry resolves to a directory, the discovered local paths are
distinct from each other and from the root, the source directory and the
resolved sources, and no stale dangling link occupies a local path. -/
theorem link_twice_idempotent (res : Path → Path) (fuel : Nat) (root : Path)
    (fs : Fs) (sourcePath : Path) (listing : List DirEnt) ( rPre lPre : Path)
    (ms1 : List Mapping)
    (hfuel : 2 ≤ fuel)
    (hone : ∀ pe ∈ fs, ∀ t : Path, pe.2 = FsEntry.symlink t →
      (fsLookup fs (res t) = some FsEntry.dir ∨
       fsLookup fs (res t) = some FsEntry.file ∨
       fsLookup fs (res t) = none))
    (hroot : fsLookup fs root = some FsEntry.dir)
    (hsrc : fsLookup fs sourcePath = some FsEntry.dir)
    (hms : discoverMappings res fuel root fs sourcePath listing rPre lPre =
      Except.ok ms1)
    (htargets : ∀ m ∈ ms1,
      fsLookup fs (res m.sourceFullPath) = some FsEntry.dir)
    (hnd : (ms1.map Mapping.localFullPath).Nodup)
    (hrootne : ∀ m ∈ ms1, root ≠ m.localFullPath)
    (hsrcne : ∀ m ∈ ms1, sourcePath ≠ m.localFullPath)
    (htargetne : ∀ m ∈ ms1, ∀ m' ∈ ms1,
      res m.sourceFullPath ≠ m'.localFullPath)
    (hnodangle : ∀ m ∈ ms1, ∀ t : Path,
      fsLookup fs m.localFullPath = some (FsEntry.symlink t) →
      fsLookup fs (res t) ≠ none) :
    ∃ fs1 ms2,
      doLink res fuel root fs ms1 =
        LinkOutcome.ok fs1 (countState LocalState.missing ms1)
          (countState LocalState.symlinkWrong ms1)
          (countState LocalState.symlinkCorrect ms1 +
           countState LocalState.directoryExists ms1) ∧
      countState LocalState.missing ms1 +
        countState LocalState.symlinkWrong ms1 +
        (countState LocalState.symlinkCorrect ms1 +
         countState LocalState.directoryExists ms1) = ms1.length ∧
      discoverMappings res fuel root fs1 sourcePath listing rPre lPre =
        Except.ok ms2 ∧
      doLink res fuel root fs1 ms2 = LinkOutcome.ok fs1 0 0 ms1.length := by
  obtain ⟨hex, hmsEq⟩ := discover_ok_elim hms
  have hstate := discover_state_eq hms
  have hfuel1 : 1 ≤ fuel := by omega
  have hmiss : ∀ m ∈ ms1, m.localState = LocalState.missing →
      fsLookup fs m.localFullPath = none := by
    intro m hm hmi
    have hnex : existsFollow res fs fuel m.localFullPath = false :=
      classifyLocal_missing_elim ((hstate m hm).symm.trans hmi)
    cases hl : fsLookup fs m.localFullPath with
    | none => rfl
    | some e =>
      cases e with
      | dir =>
        have hT : existsFollow res fs fuel m.localFullPath = true :=
          existsFollow_of_dir hfuel1 hl
        rw [hnex] at hT
        exact absurd hT (by decide)
      | file =>
        have hT : existsFollow res fs fuel m.localFullPath = true :=
          existsFollow_of_file hfuel1 hl
        rw [hnex] at hT
        exact absurd hT (by decide)
      | symlink t =>
        have hne := hnodangle m hm t hl
        have hmem := fsLookup_mem hl
        rcases hone _ hmem t rfl with hd | hf | hn
        · have hT : existsFollow res fs fuel m.localFullPath = true :=
            existsFollow_link_dir hfuel hl hd
          rw [hnex] at hT
          exact absurd hT (by decide)
        · have hT : existsFollow res fs fuel m.localFullPath = true :=
            existsFollow_link_file hfuel hl hf
          rw [hnex] at hT
          exact absurd hT (by decide)
        · exact absurd hn hne
  have hwrong : ∀ m ∈ ms1, m.localState = LocalState.symlinkWrong →
      ∃ t, fsLookup fs m.localFullPath = some (FsEntry.symlink t) := by
    intro m hm hw
    obtain ⟨t, ht, _⟩ := classifyLocal_wrong_elim ((hstate m hm).symm.trans hw)
    exact ⟨t, ht⟩
  obtain ⟨fs1, heq1, hmut, hframe⟩ :=
    doLink_spec res fuel root fs ms1 hfuel1 hroot hnd hmiss hwrong
  have hsum := doLink_counts res fuel root fs ms1 fs1 _ _ _ heq1
  have hCWne : ∀ p : Path, (∀ m ∈ ms1, p ≠ m.localFullPath) →
      fsLookup fs1 p = fsLookup fs p :=
    fun p hp => hframe p (fun m hm _ => hp m hm)
  have hroot1 : fsLookup fs1 root = some FsEntry.dir := by
    rw [hCWne root hrootne]; exact hroot
  have hsrc1 : fsLookup fs1 sourcePath = some FsEntry.dir := by
    rw [hCWne sourcePath hsrcne]; exact hsrc
  have htarget1 : ∀ m ∈ ms1,
      fsLookup fs1 (res m.sourceFullPath) = some FsEntry.dir := by
    intro m hm
    rw [hCWne (res m.sourceFullPath) (fun m' hm' => htargetne m hm m' hm')]
    exact htargets m hm
  have hex1 : existsFollow res fs1 fuel sourcePath = true :=
    existsFollow_of_dir hfuel1 hsrc1
  have huntouched : ∀ m ∈ ms1,
      (m.localState = LocalState.symlinkCorrect ∨
       m.localState = LocalState.directoryExists) →
      fsLookup fs1 m.localFullPath = fsLookup fs m.localFullPath := by
    intro m hm hstm
    refine hframe m.localFullPath ?_
    intro m' hm' hcw' hpe
    have hmm : m = m' := List.inj_on_of_nodup_map hnd hm hm' hpe
    rw [← hmm] at hcw'
    rcases hstm with h | h <;> rcases hcw' with h' | h' <;>
      (rw [h] at h'; exact absurd h' (by decide))
  have hstate2 : ∀ m ∈ ms1,
      classifyLocal res fuel fs1 m.localFullPath m.sourceFullPath =
        LocalState.symlinkCorrect ∨
      classifyLocal res fuel fs1 m.localFullPath m.sourceFullPath =
        LocalState.directoryExists := by
    intro m hm
    cases hst : m.localState with
    | missing =>
      left
      have hl1 : fsLookup fs1 m.localFullPath =
          some (FsEntry.symlink m.sourceFullPath) := hmut m hm (Or.inl hst)
      exact classifyLocal_correct
        (existsFollow_link_dir hfuel hl1 (htarget1 m hm)) hl1 rfl
    | symlinkWrong =>
      left
      have hl1 : fsLookup fs1 m.localFullPath =
          some (FsEntry.symlink m.sourceFullPath) := hmut m hm (Or.inr hst)
      exact classifyLocal_correct
        (existsFollow_link_dir hfuel hl1 (htarget1 m hm)) hl1 rfl
    | symlinkCorrect =>
      left
      obtain ⟨t, ht, hres, _⟩ :=
        classifyLocal_correct_elim ((hstate m hm).symm.trans hst)
      have hl1 : fsLookup fs1 m.localFullPath = some (FsEntry.symlink t) := by
        rw [huntouched m hm (Or.inl hst)]; exact ht
      have hres1 : fsLookup fs1 (res t) = some FsEntry.dir := by
        rw [hres]; exact htarget1 m hm
      exact classifyLocal_correct
        (existsFollow_link_dir hfuel hl1 hres1) hl1 hres
    | directoryExists =>
      right
      obtain ⟨hl, _⟩ :=
        classifyLocal_dirExists_elim ((hstate m hm).symm.trans hst)
      have hfm := huntouched m hm (Or.inr hst)
      rcases hl with hl | hl
      · have hl1 : fsLookup fs1 m.localFullPath = some FsEntry.dir := by
          rw [hfm]; exact hl
        exact classifyLocal_dirExists (existsFollow_of_dir hfuel1 hl1)
          (Or.inl hl1)
      · have hl1 : fsLookup fs1 m.localFullPath = some FsEntry.file := by
          rw [hfm]; exact hl
        exact classifyLocal_dirExists (existsFollow_of_file hfuel1 hl1)
          (Or.inr hl1)
  have hdisc2 : discoverMappings res fuel root fs1 sourcePath listing rPre
      lPre = Except.ok (ms1.map (fun m =>
        { m with localState :=
            classifyLocal res fuel fs1 m.localFullPath m.sourceFullPath })) :=
    by
    simp only [discoverMappings, hex1, if_true, Except.ok.injEq]
    rw [filterMap_congr_mem _ _ listing (fun entry _ =>
        mkMappingOf_other_fs res fuel root fs fs1 sourcePath rPre lPre entry),
      ← List.map_filterMap, ← hmsEq]
  refine ⟨fs1, _, heq1, hsum, hdisc2, ?_⟩
  have hens1 : ensureDir res fuel root fs1 = some fs1 := by
    simp [ensureDir, existsFollow_of_dir hfuel1 hroot1]
  have hall2 : ∀ m2 ∈ ms1.map (fun m =>
      { m with localState :=
          classifyLocal res fuel fs1 m.localFullPath m.sourceFullPath }),
      m2.localState = LocalState.symlinkCorrect ∨
      m2.localState = LocalState.directoryExists := by
    intro m2 hm2
    obtain ⟨m, hm, rfl⟩ := List.mem_map.mp hm2
    simpa using hstate2 m hm
  simp only [doLink, hens1]
  rw [doLinkAux_all_skip _ fs1 0 0 0 hall2]
  simp [List.length_map]

/-- Witness for C2 (amended): the concrete already-linked instance run twice.
-/
theorem link_twice_idempotent_witness :
    ∃ fs1 ms2,
      doLink id 2 ("R".data) c2fs [c2map] =
        LinkOutcome.ok fs1 (countState LocalState.missing [c2map])
          (countState LocalState.symlinkWrong [c2map])
          (countState LocalState.symlinkCorrect [c2map] +
           countState LocalState.directoryExists [c2map]) ∧
      countState LocalState.missing [c2map] +
        countState LocalState.symlinkWrong [c2map] +
        (countState LocalState.symlinkCorrect [c2map] +
         countState LocalState.directoryExists [c2map]) = [c2map].length ∧
      discoverMappings id 2 ("R".data) fs1 ("S".data) c2listing ("/h".data)
        ("/m".data) = Except.ok ms2 ∧
      doLink id 2 ("R".data) fs1 ms2 =
        LinkOutcome.ok fs1 0 0 [c2map].length :=
  link_twice_idempotent id 2 ("R".data) c2fs ("S".data) c2listing
    ("/h".data) ("/m".data) [c2map] (by decide)
    (by
      intro pe hpe t hpet
      simp only [c2fs, List.mem_cons, List.not_mem_nil, or_false] at hpe
      rcases hpe with rfl | rfl | rfl | rfl
      · exact absurd hpet (by simp)
      · exact absurd hpet (by simp)
      · exact absurd hpet (by simp)
      · simp only at hpet
        injection hpet with h2
        subst h2
        left
        decide)
    (by decide) (by decide) (by rfl) (by decide) (by decide) (by decide)
    (by decide) (by decide)
    (by
      intro m hm t hlt
      simp only [List.mem_singleton] at hm
      subst hm
      have hval : fsLookup c2fs (c2map.localFullPath) =
          some (FsEntry.symlink (pjoin ("S".data) ("-h-a".data))) := by decide
      rw [hval] at hlt
      injection hlt with hlt2
      injection hlt2 with h2
      subst h2
      decide)

end Bridge
